import Mathlib

/-! Verification of the rendering core of bot.py: greedy line breaking
(wrap), bullet-list normalization, PDF page flow with vertical overflow,
slide chunking with heading suffixes, and normalization of the loosely
typed summary record.

Python strings are modelled as lists of characters, so string length is
the number of code points, matching Python slicing and len. Vertical
page coordinates are modelled exactly: the reportlab A4 height is
297 mm = 106920/127 points and the body leading is 13.2 = 66/5 points,
so all cursor positions are integer multiples of 1/635 point. All
y-coordinates below are integers in units of 1/635 point; every
comparison made by the code is decided identically in this scale and in
binary floating point, since all margins involved exceed 4 points while
the float rounding error is far below 1/635 point. -/

/-- Python strings, modelled as lists of characters (code points). -/
abbrev Str := List Char

/-- Conversion from Lean string literals to the model type. -/
def strL (s : String) : Str := s.data

/-- The ASCII whitespace characters recognized by Python str.split.
The inputs of this program do not use the wider Unicode space set. -/
def isWS (c : Char) : Bool :=
  c == ' ' || c == '\t' || c == '\n' || c == '\r' || c == '\x0b' || c == '\x0c'

/-- Accumulator pass of Python str.split with no argument: scans the
string, collecting maximal runs of non-whitespace characters; acc holds
the current run reversed. -/
def splitGo : Str → Str → List Str
  | [], acc => if acc = [] then [] else [acc.reverse]
  | c :: cs, acc =>
    if isWS c then
      if acc = [] then splitGo cs [] else acc.reverse :: splitGo cs []
    else
      splitGo cs (c :: acc)

/-- Python text.split with no separator: split on whitespace runs,
dropping empty pieces. -/
def pySplit (s : Str) : List Str := splitGo s []

/-- Python " ".join of a list of strings. -/
def joinSp : List Str → Str
  | [] => []
  | [w] => w
  | w :: ws => w ++ ' ' :: joinSp ws

/-- Python " ".join(s.split()): collapse every whitespace run to one
space and trim both edges. -/
def collapseWS (s : Str) : Str := joinSp (pySplit s)

/-- Loop of _wrap_text in bot.py, lines 254 to 270. State: the flushed
word groups so far are returned, line is the current candidate group and
cur is the character width that " ".join(line) would have. Each word is
tried against max chars width mc; on overflow the candidate is flushed
and the word starts a fresh candidate. -/
def wrapGo (mc : Nat) : List Str → List Str → Nat → List (List Str)
  | [], line, _ => if line = [] then [] else [line]
  | w :: ws, line, cur =>
    let add := w.length + (if line = [] then 0 else 1)
    if mc < cur + add then
      line :: wrapGo mc ws [w] w.length
    else
      wrapGo mc ws (line ++ [w]) (cur + add)

/-- bot.py _wrap_text: greedy line breaking by character count. The
final Python expression lines or a one-element list holding the empty
string is the if below. -/
def _wrap_text (text : Str) (max_chars : Nat) : List Str :=
  let ls := (wrapGo max_chars (pySplit text) [] 0).map joinSp
  if ls = [] then [[]] else ls

/-- bot.py _normalize_bullets_list, lines 236 to 249, restricted to
string items as produced by structure_text and used by draw_section:
skip falsy (empty) items, collapse whitespace, drop items that become
empty. -/
def _normalize_bullets_list (raw : List Str) : List Str :=
  raw.filterMap fun item =>
    if item = [] then none
    else
      let text := collapseWS item
      if text = [] then none else some text

/-- bot.py t: localized string choice, line 105. -/
def t (lang ru en : Str) : Str := if lang = strL "ru" then ru else en

/-! Page flow geometry of build_pdf, in units of 1/635 point (635 is
127 times 5, clearing the denominators of the A4 height 106920/127 pt
and the leading 66/5 pt). -/

/-- A4 page height: 297 mm = 841.8897... pt, exactly 534600/635 pt. -/
def pageHeight : Int := 534600

/-- Left, right margin: 72 pt. -/
def pageMargin : Int := 45720

/-- Body text leading: 1.2 times the 11 pt body font = 13.2 pt. -/
def lineLeading : Int := 8382

/-- bot.py bottom_limit = footer_line_y + 25 = 40 + 6 + 25 = 71 pt:
below this y no further text line may start on the page. -/
def bottom_limit : Int := 45085

/-- Start of the section text block: beginText at height - margin - 30,
that is 739.8897... pt. -/
def sectionTextTop : Int := pageHeight - pageMargin - 19050

/-- One physical text line placed by draw_section. isFirst records
whether the drawn line carried the bullet marker, the two-character
dot marker for the first wrapped line of a bullet versus three blank
spaces for continuation lines. ypos is the cursor y at which the line
was placed. -/
structure DrawnLine where
  isFirst : Bool
  content : Str
  ypos : Int
  deriving DecidableEq

/-- Mutable state of draw_section: finished pages (their bullet lines,
in drawing order), the lines of the page being filled, and the text
cursor y. Header and footer drawing carry no data and are implicit in
the page boundaries. -/
structure SecState where
  pages : List (List DrawnLine)
  cur : List DrawnLine
  y : Int
  deriving DecidableEq

/-- text.textLine(prefix + line) followed by the overflow test of
draw_section: the line is placed at the current cursor, the cursor
advances down by one leading, and only then, if the cursor fell below
bottom_limit, the page is flushed (drawText, footer, showPage) and a
fresh page with the same heading is opened with the cursor reset. -/
def placeLine (st : SecState) (first : Bool) (content : Str) : SecState :=
  let cur2 := st.cur ++ [⟨first, content, st.y⟩]
  let y2 := st.y - lineLeading
  if y2 < bottom_limit then ⟨st.pages ++ [cur2], [], sectionTextTop⟩
  else ⟨st.pages, cur2, y2⟩

/-- The inner loop of draw_section over the wrapped lines of one bullet:
the first line carries the bullet marker, the rest do not. -/
def placeLines (st : SecState) (first : Bool) : List Str → SecState
  | [] => st
  | l :: ls => placeLines (placeLine st first l) false ls

/-- One iteration of the bullet loop of draw_section: wrap the bullet at
60 characters, place its lines, then emit the blank spacing line, which
advances the cursor without an overflow test. -/
def placeBullet (st : SecState) (b : Str) : SecState :=
  let st2 := placeLines st true (_wrap_text b 60)
  { st2 with y := st2.y - lineLeading }

/-- One finished page of a section: the heading drawn at its top and the
bullet lines placed on it. The code draws the very same unsuffixed
heading string on every page of the section. -/
structure SecPage where
  heading : Str
  lines : List DrawnLine
  deriving DecidableEq

/-- bot.py draw_section, lines 337 to 373: normalize the bullets, return
nothing when none remain, otherwise run the bullet loop from the top of
a fresh page and close the last page. -/
def draw_section (heading : Str) (bullets : List Str) : List SecPage :=
  let bs := _normalize_bullets_list bullets
  if bs = [] then []
  else
    let st := bs.foldl placeBullet ⟨[], [], sectionTextTop⟩
    (st.pages ++ [st.cur]).map fun ls => ⟨heading, ls⟩

/-- The summary record as it reaches build_pdf and build_slides after
structure_text: a title, a short description and the four bullet lists. -/
structure SummaryData where
  title : Str
  short_description : Str
  summary : List Str
  key_tasks : List Str
  action_plan : List Str
  conclusion : List Str
  deriving DecidableEq

/-- Output pages of build_pdf: the title page (title, creation date and
the wrapped short description, none of which carries a bullet marker)
followed by the section pages. -/
inductive Page where
  | titlePage (title : Str) (shortLines : List Str) : Page
  | sectionPage (p : SecPage) : Page
  deriving DecidableEq

/-- bot.py build_pdf, lines 272 to 384: title page, then the four
sections in fixed order with localized headings. An empty title falls
back to the localized default; an empty short description draws no text
block. -/
def build_pdf (lang : Str) (d : SummaryData) : List Page :=
  Page.titlePage
      (if d.title = [] then t lang (strL "Конспект") (strL "Summary") else d.title)
      (if d.short_description = [] then [] else _wrap_text d.short_description 60)
    :: ((draw_section (t lang (strL "Краткое содержание") (strL "Summary")) d.summary).map Page.sectionPage
      ++ (draw_section (t lang (strL "Ключевые задачи") (strL "Key tasks")) d.key_tasks).map Page.sectionPage
      ++ (draw_section (t lang (strL "План действий") (strL "Action plan")) d.action_plan).map Page.sectionPage
      ++ (draw_section (t lang (strL "Итог") (strL "Conclusion")) d.conclusion).map Page.sectionPage)

/-- Number of drawn lines of a page that carry the bullet marker. -/
def countBulletsPage : Page → Nat
  | Page.titlePage _ _ => 0
  | Page.sectionPage p => (p.lines.filter fun l => l.isFirst).length

/-- Total number of bullet-marker lines over a list of pages. -/
def countBullets (ps : List Page) : Nat := (ps.map countBulletsPage).sum

/-- Bullet-marker line count of one section page. -/
def secPageCount (pg : List DrawnLine) : Nat := (pg.filter fun l => l.isFirst).length

/-- All lines recorded in a draw_section state, in drawing order. -/
def stFlat (st : SecState) : List DrawnLine := st.pages.flatten ++ st.cur

/-- Tag the wrapped lines of one bullet with their marker flags: the
head gets flag f, the continuation lines get false. -/
def tagWith (f : Bool) : List Str → List (Bool × Str)
  | [] => []
  | l :: ls => (f, l) :: ls.map fun x => (false, x)

/-- Marker and content of every line of a state, in drawing order,
forgetting the y coordinates. -/
def stProj (st : SecState) : List (Bool × Str) :=
  (stFlat st).map fun l => (l.isFirst, l.content)

/-- Bullet-marker line count of a state. -/
def stCnt (st : SecState) : Nat :=
  (st.pages.map secPageCount).sum + secPageCount st.cur

/-- True when some recorded line of some page was placed with its
cursor already below bottom_limit. -/
def hasLineBelowLimit (pages : List SecPage) : Bool :=
  pages.any fun p => p.lines.any fun l => decide (l.ypos < bottom_limit)

/-- A word of sixty letters: at the 60-character wrap width it exactly
fills a line on its own. -/
def w60 : Str := List.replicate 60 'a'

/-- Input exhibiting the overflow timing of draw_section: a two-line
bullet followed by twenty-five one-line bullets. After the twenty-fourth
one-line bullet the overflow test passes, the unchecked blank spacing
line drops the cursor below bottom_limit, and the next bullet line is
drawn below the limit before the page is flushed. -/
def cexBullets : List Str := (w60 ++ ' ' :: w60) :: List.replicate 25 (strL "a")

/-- First page produced by draw_section on the overflow example. -/
def cexFirstPage : SecPage :=
  (draw_section (strL "S") cexBullets).headD ⟨[], []⟩

/-- One slide of the deck: its heading, possibly suffixed with the
one-based chunk number, and the bullets of its chunk. The body text of
the slide is the newline join of the bullets, each with a bullet-marker
dot, and is determined by the bullets field. -/
structure Slide where
  heading : Str
  bullets : List Str
  deriving DecidableEq

/-- Decimal digits of a natural number. -/
def natStr (n : Nat) : Str := Nat.toDigits 10 n

/-- bot.py bullets_slides_for_section, lines 550 to 625, with its fixed
chunk size 7. The Python loop runs over range(0, len(bullets), 7),
that is over the chunk indices k below ceil(len(bullets) / 7), written
here with the natural division (n + 6) / 7; chunk k is the slice
bullets[7k : 7k + 7]. Chunk zero keeps the heading verbatim, every
later chunk k appends the one-based chunk number k + 1 in
parentheses. -/
def bullets_slides_for_section (title_text : Str) (bullets : List Str) : List Slide :=
  (List.range ((bullets.length + 6) / 7)).map fun k =>
    ⟨if k = 0 then title_text
      else title_text ++ strL " (" ++ natStr (k + 1) ++ strL ")",
      (bullets.drop (7 * k)).take 7⟩

/-- The slide deck built by _slides_title_and_bullets_requests: the
title slide data and the section slides. -/
structure SlidesRequests where
  deckTitle : Str
  deckSubtitle : Str
  slides : List Slide
  deriving DecidableEq

/-- bot.py _slides_title_and_bullets_requests, lines 477 to 642: one
title slide, then for each of the four lists in fixed order, skipped
only when the raw list itself is empty, the chunked slides of that
section. Note that no whitespace normalization of the bullets happens
on this path. -/
def _slides_title_and_bullets_requests (title subtitle : Str) (lang : Str)
    (summary key_tasks action_plan conclusion : List Str) : SlidesRequests :=
  ⟨title, subtitle,
    (if summary = [] then []
      else bullets_slides_for_section (t lang (strL "Краткое содержание") (strL "Summary")) summary)
    ++ (if key_tasks = [] then []
      else bullets_slides_for_section (t lang (strL "Ключевые задачи") (strL "Key tasks")) key_tasks)
    ++ (if action_plan = [] then []
      else bullets_slides_for_section (t lang (strL "План действий") (strL "Action plan")) action_plan)
    ++ (if conclusion = [] then []
      else bullets_slides_for_section (t lang (strL "Итог") (strL "Conclusion")) conclusion)⟩

/-- The loosely typed values reaching structure_text from the JSON
summarization reply: strings, integers, booleans, null and arrays. -/
inductive PyVal where
  | vStr (s : Str)
  | vInt (n : Int)
  | vBool (b : Bool)
  | vNone
  | vList (xs : List PyVal)

/-- The single quote character, code point 39. -/
def sQuote : Char := Char.ofNat 39

/-- Decimal representation of an integer. -/
def intStr (n : Int) : Str :=
  if n < 0 then '-' :: Nat.toDigits 10 n.natAbs else Nat.toDigits 10 n.toNat

mutual

/-- Python repr of a modelled value: None, True, False, decimal
integers, quoted strings (single quotes unless the string holds a
single quote and no double quote) and bracketed lists. Escaping of
control characters inside string literals is not modelled; no claim
depends on it. -/
def pyRepr : PyVal → Str
  | PyVal.vStr s =>
    if s.contains sQuote && !(s.contains '"') then '"' :: (s ++ ['"'])
    else sQuote :: (s ++ [sQuote])
  | PyVal.vInt n => intStr n
  | PyVal.vBool b => if b then strL "True" else strL "False"
  | PyVal.vNone => strL "None"
  | PyVal.vList xs => '[' :: (pyReprList xs ++ [']'])

/-- Comma-joined reprs of the elements of a list value. -/
def pyReprList : List PyVal → Str
  | [] => []
  | [x] => pyRepr x
  | x :: y :: xs => pyRepr x ++ strL ", " ++ pyReprList (y :: xs)

end

/-- Python str of a modelled value: the string itself for strings, the
repr for everything else. -/
def pyStr : PyVal → Str
  | PyVal.vStr s => s
  | v => pyRepr v

/-- Python truthiness of a modelled value. -/
def truthy : PyVal → Bool
  | PyVal.vStr s => !s.isEmpty
  | PyVal.vInt n => n != 0
  | PyVal.vBool b => b
  | PyVal.vNone => false
  | PyVal.vList xs => !xs.isEmpty

/-- The unvalidated record parsed from the summarization reply: each key
may be absent or hold a value of any shape. -/
structure RawRecord where
  title : Option PyVal
  short_description : Option PyVal
  summary : Option PyVal
  key_tasks : Option PyVal
  action_plan : Option PyVal
  conclusion : Option PyVal

/-- Coercion of one list field by structure_text, lines 220 to 227: a
string is wrapped into a one-element list, a list keeps its truthy
elements stringified, anything else becomes the empty list. -/
def coerceListField (v : Option PyVal) : PyVal :=
  match v with
  | some (PyVal.vStr s) => PyVal.vList [PyVal.vStr s]
  | some (PyVal.vList xs) =>
    PyVal.vList ((xs.filter truthy).map fun x => PyVal.vStr (pyStr x))
  | _ => PyVal.vList []

/-- Coercion of the title by structure_text, lines 230 to 231: a string
is kept untouched; otherwise the str of the present value, or of the
empty-string default when the key is absent, truncated to 120 code
points. -/
def coerceTitle (v : Option PyVal) : PyVal :=
  match v with
  | some (PyVal.vStr s) => PyVal.vStr s
  | some w => PyVal.vStr ((pyStr w).take 120)
  | none => PyVal.vStr ((pyStr (PyVal.vStr [])).take 120)

/-- Coercion of the short description, lines 232 to 233, with the 400
code point truncation. -/
def coerceShort (v : Option PyVal) : PyVal :=
  match v with
  | some (PyVal.vStr s) => PyVal.vStr s
  | some w => PyVal.vStr ((pyStr w).take 400)
  | none => PyVal.vStr ((pyStr (PyVal.vStr [])).take 400)

/-- The coercion part of the normalizer: bot.py structure_text, lines
219 to 235, applied to a parsed record. -/
def structure_text_normalize (r : RawRecord) : RawRecord :=
  { title := some (coerceTitle r.title)
    short_description := some (coerceShort r.short_description)
    summary := some (coerceListField r.summary)
    key_tasks := some (coerceListField r.key_tasks)
    action_plan := some (coerceListField r.action_plan)
    conclusion := some (coerceListField r.conclusion) }

/-- bot.py _normalize_bullets_list on arbitrary values, exactly as
written: skip falsy items, collapse the whitespace of str(item), drop
items that became empty. -/
def _normalize_bullets_list_v (raw : List PyVal) : List Str :=
  raw.filterMap fun item =>
    if truthy item = false then none
    else
      let text := collapseWS (pyStr item)
      if text = [] then none else some text

/-- Bullet cleanup of one coerced list field, as applied by draw_section
to each list before rendering. -/
def cleanupField : PyVal → PyVal
  | PyVal.vList xs => PyVal.vList ((_normalize_bullets_list_v xs).map PyVal.vStr)
  | v => v

/-- The full normalizer: coercion by structure_text followed by the
bullet cleanup of every list field. Its output is the structured
document both renderers are specified over. -/
def normalizeDoc (r : RawRecord) : RawRecord :=
  { title := some (coerceTitle r.title)
    short_description := some (coerceShort r.short_description)
    summary := some (cleanupField (coerceListField r.summary))
    key_tasks := some (cleanupField (coerceListField r.key_tasks))
    action_plan := some (cleanupField (coerceListField r.action_plan))
    conclusion := some (cleanupField (coerceListField r.conclusion)) }

/-- The string held by a normalized scalar field. -/
def strOfField (v : Option PyVal) : Str :=
  match v with
  | some (PyVal.vStr s) => s
  | _ => []

/-- The strings held by a normalized list field. -/
def strListOfField (v : Option PyVal) : List Str :=
  match v with
  | some (PyVal.vList xs) => xs.map pyStr
  | _ => []

/-- View of a coerced record as the summary data consumed by build_pdf
and build_slides. -/
def toSummaryData (r : RawRecord) : SummaryData :=
  ⟨strOfField r.title, strOfField r.short_description,
    strListOfField r.summary, strListOfField r.key_tasks,
    strListOfField r.action_plan, strListOfField r.conclusion⟩

/-- Title drawn on the first output page. -/
def firstPageTitle : List Page → Str
  | Page.titlePage ttl _ :: _ => ttl
  | _ => []

/-! Lemmas about splitting and joining. -/

/-- Unfolding equation of joinSp on a list of at least two words. -/
theorem joinSp_cons2 (w v : Str) (ws : List Str) :
    joinSp (w :: v :: ws) = w ++ ' ' :: joinSp (v :: ws) := rfl

/-- Scanning a run of non-whitespace characters only extends the
current accumulator. -/
theorem splitGo_append_nonWS (w : Str) (hw : ∀ c ∈ w, isWS c = false) :
    ∀ (s acc : Str), splitGo (w ++ s) acc = splitGo s (w.reverse ++ acc) := by
  induction w with
  | nil => intro s acc; simp
  | cons c cs ih =>
    intro s acc
    have hc : isWS c = false := hw c (by simp)
    have hcs : ∀ x ∈ cs, isWS x = false := fun x hx => hw x (by simp [hx])
    simp only [List.cons_append, splitGo, hc, Bool.false_eq_true, if_false,
      List.append_eq]
    rw [ih hcs s (c :: acc)]
    simp

/-- Every word produced by the split scanner is non-empty and free of
whitespace, provided the accumulator is. -/
theorem splitGo_good (s : Str) :
    ∀ acc, (∀ c ∈ acc, isWS c = false) →
      ∀ w ∈ splitGo s acc, w ≠ [] ∧ ∀ c ∈ w, isWS c = false := by
  induction s with
  | nil =>
    intro acc hacc w hw
    simp only [splitGo] at hw
    split at hw
    · simp at hw
    · next hne =>
      simp only [List.mem_singleton] at hw
      subst hw
      refine ⟨by simpa using hne, ?_⟩
      intro c hc
      exact hacc c (List.mem_reverse.mp hc)
  | cons c cs ih =>
    intro acc hacc w hw
    simp only [splitGo] at hw
    by_cases hws : isWS c
    · rw [if_pos hws] at hw
      split at hw
      · exact ih [] (by simp) w hw
      · next hne =>
        rcases List.mem_cons.mp hw with h | h
        · subst h
          refine ⟨by simpa using hne, ?_⟩
          intro x hx
          exact hacc x (List.mem_reverse.mp hx)
        · exact ih [] (by simp) w h
    · rw [if_neg hws] at hw
      refine ih (c :: acc) ?_ w hw
      intro x hx
      rcases List.mem_cons.mp hx with h | h
      · subst h; simpa using hws
      · exact hacc x h

/-- Every word of a Python split is non-empty and whitespace free. -/
theorem pySplit_good (s : Str) :
    ∀ w ∈ pySplit s, w ≠ [] ∧ ∀ c ∈ w, isWS c = false :=
  splitGo_good s [] (by simp)

/-- Splitting the space join of good words recovers the words. -/
theorem pySplit_joinSp :
    ∀ ws : List Str, (∀ w ∈ ws, w ≠ [] ∧ ∀ c ∈ w, isWS c = false) →
      pySplit (joinSp ws) = ws := by
  intro ws
  induction ws with
  | nil => intro _; rfl
  | cons w rest ih =>
    intro h
    obtain ⟨hwne, hwgood⟩ := h w (by simp)
    cases rest with
    | nil =>
      show splitGo (joinSp [w]) [] = [w]
      rw [show joinSp [w] = w from rfl, show (w : Str) = w ++ [] by simp,
        splitGo_append_nonWS w hwgood]
      simp only [splitGo, List.append_nil]
      rw [if_neg (by simpa using hwne)]
      simp
    | cons v rest2 =>
      show splitGo (joinSp (w :: v :: rest2)) [] = w :: v :: rest2
      rw [joinSp_cons2, splitGo_append_nonWS w hwgood]
      simp only [splitGo]
      rw [if_pos (by simp [isWS]), if_neg (by simpa using hwne)]
      rw [show splitGo (joinSp (v :: rest2)) [] = pySplit (joinSp (v :: rest2)) from rfl]
      rw [ih (fun x hx => h x (by simp [hx]))]
      simp

/-- Whitespace collapsing is idempotent. -/
theorem collapseWS_collapseWS (s : Str) : collapseWS (collapseWS s) = collapseWS s := by
  show joinSp (pySplit (joinSp (pySplit s))) = joinSp (pySplit s)
  rw [pySplit_joinSp (pySplit s) (pySplit_good s)]

/-! Lemmas about the greedy wrap loop. -/

/-- Unfolding equation of the wrap loop with no words left. -/
theorem wrapGo_nil (mc : Nat) (line : List Str) (cur : Nat) :
    wrapGo mc [] line cur = if line = [] then [] else [line] := rfl

/-- Unfolding equation of one wrap loop step. -/
theorem wrapGo_cons (mc : Nat) (w : Str) (ws line : List Str) (cur : Nat) :
    wrapGo mc (w :: ws) line cur =
      if mc < cur + (w.length + if line = [] then 0 else 1) then
        line :: wrapGo mc ws [w] w.length
      else
        wrapGo mc ws (line ++ [w]) (cur + (w.length + if line = [] then 0 else 1)) := rfl

/-- Unfolding equation of one wrap loop step from an empty candidate. -/
theorem wrapGo_cons_nil (mc : Nat) (w : Str) (ws : List Str) (cur : Nat) :
    wrapGo mc (w :: ws) [] cur =
      if mc < cur + w.length then [] :: wrapGo mc ws [w] w.length
      else wrapGo mc ws [w] (cur + w.length) := by
  rw [wrapGo_cons]
  norm_num

/-- Unfolding equation of _wrap_text. -/
theorem _wrap_text_eq (text : Str) (mc : Nat) :
    _wrap_text text mc =
      if (wrapGo mc (pySplit text) [] 0).map joinSp = [] then [[]]
      else (wrapGo mc (pySplit text) [] 0).map joinSp := rfl

/-- The wrap loop only regroups: the concatenation of all flushed groups
is the pending candidate followed by the remaining words. -/
theorem wrapGo_flatten (mc : Nat) :
    ∀ (ws line : List Str) (cur : Nat),
      (wrapGo mc ws line cur).flatten = line ++ ws := by
  intro ws
  induction ws with
  | nil =>
    intro line cur
    rw [wrapGo_nil]
    by_cases h : line = [] <;> simp [h]
  | cons w ws ih =>
    intro line cur
    rw [wrapGo_cons]
    by_cases h : mc < cur + (w.length + if line = [] then 0 else 1)
    · rw [if_pos h]; simp [ih]
    · rw [if_neg h]; simp [ih]

/-- Every word inside any flushed group comes from the candidate or the
remaining input words. -/
theorem wrapGo_mem_words (mc : Nat) (ws line : List Str) (cur : Nat)
    (g : List Str) (hg : g ∈ wrapGo mc ws line cur) :
    ∀ x ∈ g, x ∈ line ++ ws := by
  intro x hx
  have : x ∈ (wrapGo mc ws line cur).flatten :=
    List.mem_flatten.mpr ⟨g, hg, hx⟩
  rwa [wrapGo_flatten] at this

/-- Character width of a space join after appending one word. -/
theorem joinSp_append_one :
    ∀ (line : List Str) (w : Str),
      (joinSp (line ++ [w])).length =
        (joinSp line).length + w.length + (if line = [] then 0 else 1) := by
  intro line
  induction line with
  | nil => intro w; simp [joinSp]
  | cons v rest ih =>
    intro w
    cases rest with
    | nil =>
      simp [joinSp, joinSp_cons2]
      omega
    | cons u rest2 =>
      rw [show ((v :: u :: rest2 : List Str) ++ [w]) = v :: ((u :: rest2) ++ [w]) from rfl]
      rw [show ((u :: rest2 : List Str) ++ [w]) = u :: (rest2 ++ [w]) from rfl]
      rw [joinSp_cons2]
      rw [show (u :: (rest2 ++ [w]) : List Str) = (u :: rest2) ++ [w] from rfl]
      rw [joinSp_cons2]
      have := ih w
      simp only [List.length_append, List.length_cons] at this ⊢
      simp at this ⊢
      omega

/-- Width invariant of the wrap loop: provided cur tracks the joined
width of the candidate, every flushed group either joins to a line
within the width bound or is a single word. -/
theorem wrapGo_width (mc : Nat) :
    ∀ (ws line : List Str) (cur : Nat),
      cur = (joinSp line).length →
      ((joinSp line).length ≤ mc ∨ ∃ w, line = [w]) →
      ∀ g ∈ wrapGo mc ws line cur,
        (joinSp g).length ≤ mc ∨ ∃ w, g = [w] := by
  intro ws
  induction ws with
  | nil =>
    intro line cur _ hdisj g hg
    rw [wrapGo_nil] at hg
    split at hg
    · simp at hg
    · simp only [List.mem_singleton] at hg
      subst hg
      exact hdisj
  | cons w ws ih =>
    intro line cur hcur hdisj g hg
    rw [wrapGo_cons] at hg
    by_cases hov : mc < cur + (w.length + if line = [] then 0 else 1)
    · rw [if_pos hov] at hg
      rcases List.mem_cons.mp hg with h | h
      · subst h; exact hdisj
      · exact ih [w] w.length (by simp [joinSp]) (Or.inr ⟨w, rfl⟩) g h
    · rw [if_neg hov] at hg
      refine ih (line ++ [w]) _ ?_ ?_ g hg
      · rw [joinSp_append_one, hcur]; omega
      · left
        rw [joinSp_append_one, ← hcur]
        omega

/-- When the candidate is non-empty, every group the loop flushes is
non-empty. -/
theorem wrapGo_groups_ne (mc : Nat) :
    ∀ (ws line : List Str) (cur : Nat), line ≠ [] →
      ∀ g ∈ wrapGo mc ws line cur, g ≠ [] := by
  intro ws
  induction ws with
  | nil =>
    intro line cur hline g hg
    rw [wrapGo_nil, if_neg hline] at hg
    simp only [List.mem_singleton] at hg
    subst hg; exact hline
  | cons w ws ih =>
    intro line cur hline g hg
    rw [wrapGo_cons] at hg
    by_cases hov : mc < cur + (w.length + if line = [] then 0 else 1)
    · rw [if_pos hov] at hg
      rcases List.mem_cons.mp hg with h | h
      · subst h; exact hline
      · exact ih [w] w.length (by simp) g h
    · rw [if_neg hov] at hg
      exact ih (line ++ [w]) _ (by simp) g hg

/-- A candidate wider than the bound is flushed unchanged before any
further word is added. -/
theorem wrapGo_flush_head (mc : Nat) (ws line : List Str) (cur : Nat)
    (hc : mc < cur) (hl : line ≠ []) :
    ∃ rest, wrapGo mc ws line cur = line :: rest := by
  cases ws with
  | nil => exact ⟨[], by rw [wrapGo_nil, if_neg hl]⟩
  | cons w ws =>
    refine ⟨wrapGo mc ws [w] w.length, ?_⟩
    rw [wrapGo_cons, if_pos (by omega)]

/-- The wrap function never returns an empty list of lines. -/
theorem wrap_ne_nil (text : Str) (mc : Nat) : _wrap_text text mc ≠ [] := by
  rw [_wrap_text_eq]
  by_cases h : (wrapGo mc (pySplit text) [] 0).map joinSp = []
  · rw [if_pos h]; simp
  · rw [if_neg h]; exact h

/-- C1. For every input string and width bound, every line produced by
_wrap_text either has length (its measured width in characters, the
measure this renderer uses) at most the bound, or is exactly one
whitespace-delimited word of the input, wider than the bound, emitted
unmodified as its own line. The claim restricts widths to be positive;
the statement holds for every width. -/
theorem wrap_width_bound (text : Str) (mc : Nat) :
    ∀ l ∈ _wrap_text text mc,
      l.length ≤ mc ∨ (l ∈ pySplit text ∧ mc < l.length) := by
  intro l hl
  rw [_wrap_text_eq] at hl
  by_cases h : (wrapGo mc (pySplit text) [] 0).map joinSp = []
  · rw [if_pos h] at hl
    simp only [List.mem_singleton] at hl
    subst hl
    left; simp
  · rw [if_neg h] at hl
    rcases List.mem_map.mp hl with ⟨g, hg, rfl⟩
    rcases wrapGo_width mc (pySplit text) [] 0 (by simp [joinSp]) (by simp [joinSp])
        g hg with hle | ⟨w, rfl⟩
    · left; exact hle
    · rcases le_or_lt (joinSp [w]).length mc with hle | hlt
      · left; exact hle
      · right
        refine ⟨?_, hlt⟩
        have : w ∈ ([] : List Str) ++ pySplit text :=
          wrapGo_mem_words mc (pySplit text) [] 0 [w] hg w (by simp)
        simpa [joinSp] using this

/-- C2. Concatenating the words of all lines produced by _wrap_text
reproduces the whitespace-split word sequence of the input exactly: no
word is lost, duplicated or reordered. -/
theorem wrap_words_exact (text : Str) (mc : Nat) :
    ((_wrap_text text mc).map pySplit).flatten = pySplit text := by
  rw [_wrap_text_eq]
  by_cases h : (wrapGo mc (pySplit text) [] 0).map joinSp = []
  · rw [if_pos h]
    have hw : pySplit text = [] := by
      have hfl := wrapGo_flatten mc (pySplit text) [] 0
      rw [List.map_eq_nil_iff.mp h] at hfl
      simpa using hfl.symm
    rw [hw]
    simp [pySplit, splitGo]
  · rw [if_neg h, List.map_map]
    have hmap : (wrapGo mc (pySplit text) [] 0).map (pySplit ∘ joinSp) =
        (wrapGo mc (pySplit text) [] 0).map id := by
      refine List.map_congr_left ?_
      intro g hg
      have hgood : ∀ x ∈ g, x ≠ [] ∧ ∀ c ∈ x, isWS c = false := by
        intro x hx
        have hx2 : x ∈ ([] : List Str) ++ pySplit text :=
          wrapGo_mem_words mc (pySplit text) [] 0 g hg x hx
        exact pySplit_good text x (by simpa using hx2)
      show pySplit (joinSp g) = g
      exact pySplit_joinSp g hgood
    rw [hmap, List.map_id]
    simpa using wrapGo_flatten mc (pySplit text) [] 0

/-- C10. If the first whitespace-separated word of the input is wider
than the bound, the wrapped output begins with an empty line followed by
that word as its own line; and whenever the first word fits (or there
are no words at all), no line before the final one is empty. -/
theorem wrap_leading_empty (text : Str) (mc : Nat) :
    (∀ w0 rest, pySplit text = w0 :: rest → mc < w0.length →
      ∃ tail, _wrap_text text mc = [] :: w0 :: tail) ∧
    ((∀ w0 rest, pySplit text = w0 :: rest → w0.length ≤ mc) →
      ∀ l ∈ (_wrap_text text mc).dropLast, l ≠ []) := by
  constructor
  · intro w0 rest hsplit hwide
    obtain ⟨tail2, htail2⟩ :=
      wrapGo_flush_head mc rest [w0] w0.length hwide (by simp)
    have hstep : wrapGo mc (w0 :: rest) [] 0 = [] :: [w0] :: tail2 := by
      rw [wrapGo_cons_nil, if_pos (by omega), htail2]
    rw [_wrap_text_eq, hsplit, hstep, if_neg (by simp)]
    exact ⟨tail2.map joinSp, rfl⟩
  · intro hfit l hl
    cases hsplit : pySplit text with
    | nil =>
      rw [_wrap_text_eq, hsplit, wrapGo_nil] at hl
      simp at hl
    | cons w0 rest =>
      have hw0 : w0.length ≤ mc := hfit w0 rest hsplit
      have hmem : l ∈ _wrap_text text mc := List.dropLast_subset _ hl
      have hstep : wrapGo mc (w0 :: rest) [] 0 = wrapGo mc rest [w0] w0.length := by
        rw [wrapGo_cons_nil, if_neg (by omega), Nat.zero_add]
      rw [_wrap_text_eq, hsplit, hstep] at hmem
      have hne : (wrapGo mc rest [w0] w0.length).map joinSp ≠ [] := by
        intro hcon
        have hfl := wrapGo_flatten mc rest [w0] w0.length
        rw [List.map_eq_nil_iff.mp hcon] at hfl
        simp at hfl
      rw [if_neg hne] at hmem
      rcases List.mem_map.mp hmem with ⟨g, hg, rfl⟩
      have hgne : g ≠ [] :=
        wrapGo_groups_ne mc rest [w0] w0.length (by simp) g hg
      have hgood : ∀ x ∈ g, x ≠ [] := by
        intro x hx
        have hx2 : x ∈ ([w0] : List Str) ++ rest :=
          wrapGo_mem_words mc rest [w0] w0.length g hg x hx
        have hx3 : x ∈ pySplit text := by
          rw [hsplit]
          simpa using hx2
        exact (pySplit_good text x hx3).1
      cases g with
      | nil => exact absurd rfl hgne
      | cons x g2 =>
        cases g2 with
        | nil => simpa [joinSp] using hgood x (by simp)
        | cons y g3 =>
          rw [joinSp_cons2]
          intro hcon
          rcases List.append_eq_nil.mp hcon with ⟨_, h2⟩
          exact List.cons_ne_nil _ _ h2

/-- Witness for C1 at a concrete input: the word aaaa exceeds width 3
and is emitted as its own line. -/
theorem wrap_width_bound_witness :
    (strL "aaaa").length ≤ 3 ∨
      (strL "aaaa" ∈ pySplit (strL "aaaa b") ∧ 3 < (strL "aaaa").length) :=
  wrap_width_bound (strL "aaaa b") 3 (strL "aaaa") (by decide)

/-- Witness for C10 at concrete inputs: an overlong first word yields a
leading empty line, and with a fitting first word the non-final lines
are non-empty. -/
theorem wrap_leading_empty_witness :
    (∃ tail, _wrap_text (strL "aaaa b") 3 = [] :: (strL "aaaa") :: tail) ∧
    strL "ab" ≠ [] :=
  ⟨(wrap_leading_empty (strL "aaaa b") 3).1 (strL "aaaa") [strL "b"] (by decide) (by decide),
   (wrap_leading_empty (strL "ab cd") 2).2
     (by
       intro w0 rest h
       rw [show pySplit (strL "ab cd") = [strL "ab", strL "cd"] by decide] at h
       cases h
       decide)
     (strL "ab") (by decide)⟩

/-! Lemmas about the page flow machine of draw_section. -/

/-- Unfolding of placeLine when the advanced cursor stays at or above
the limit. -/
theorem placeLine_stay (st : SecState) (f : Bool) (c : Str)
    (h : ¬ st.y - lineLeading < bottom_limit) :
    placeLine st f c =
      ⟨st.pages, st.cur ++ [⟨f, c, st.y⟩], st.y - lineLeading⟩ := by
  rw [placeLine, if_neg h]

/-- Unfolding of placeLine when the advanced cursor falls below the
limit: the page is flushed and the cursor resets. -/
theorem placeLine_flush (st : SecState) (f : Bool) (c : Str)
    (h : st.y - lineLeading < bottom_limit) :
    placeLine st f c =
      ⟨st.pages ++ [st.cur ++ [⟨f, c, st.y⟩]], [], sectionTextTop⟩ := by
  rw [placeLine, if_pos h]

/-- Placing one line appends exactly that line to the recorded lines,
whichever branch is taken. -/
theorem stFlat_placeLine (st : SecState) (f : Bool) (c : Str) :
    stFlat (placeLine st f c) = stFlat st ++ [⟨f, c, st.y⟩] := by
  by_cases h : st.y - lineLeading < bottom_limit
  · rw [placeLine_flush st f c h]
    simp [stFlat]
  · rw [placeLine_stay st f c h]
    simp [stFlat]

/-- After placing a line the cursor is at or above the limit. -/
theorem placeLine_y_ge (st : SecState) (f : Bool) (c : Str) :
    bottom_limit ≤ (placeLine st f c).y := by
  by_cases h : st.y - lineLeading < bottom_limit
  · rw [placeLine_flush st f c h]
    show bottom_limit ≤ sectionTextTop
    decide
  · rw [placeLine_stay st f c h]
    show bottom_limit ≤ st.y - lineLeading
    omega

/-- Projection of the trace after placing the lines of one bullet: the
head line carries the marker flag, the rest do not. -/
theorem stProj_placeLines (ls : List Str) :
    ∀ (st : SecState) (f : Bool),
      stProj (placeLines st f ls) = stProj st ++ tagWith f ls := by
  induction ls with
  | nil => intro st f; simp [placeLines, tagWith]
  | cons l ls ih =>
    intro st f
    rw [placeLines, ih]
    have hproj : stProj (placeLine st f l) = stProj st ++ [(f, l)] := by
      rw [stProj, stFlat_placeLine]
      simp [stProj]
    rw [hproj, tagWith]
    cases ls with
    | nil => simp [tagWith]
    | cons m ms => simp [tagWith]

/-- Changing only the cursor leaves the recorded trace unchanged. -/
theorem stProj_setY (st : SecState) (v : Int) :
    stProj { st with y := v } = stProj st := rfl

/-- Projection of the trace after one whole bullet. -/
theorem stProj_placeBullet (st : SecState) (b : Str) :
    stProj (placeBullet st b) = stProj st ++ tagWith true (_wrap_text b 60) := by
  have h : placeBullet st b =
      { placeLines st true (_wrap_text b 60) with
        y := (placeLines st true (_wrap_text b 60)).y - lineLeading } := rfl
  rw [h, stProj_setY, stProj_placeLines]

/-- Projection of the trace after the whole bullet loop: the tagged
wrapped lines of every normalized bullet, in order. -/
theorem stProj_fold (bs : List Str) :
    ∀ st : SecState,
      stProj (bs.foldl placeBullet st) =
        stProj st ++ (bs.map fun b => tagWith true (_wrap_text b 60)).flatten := by
  induction bs with
  | nil => intro st; simp
  | cons b bs ih =>
    intro st
    rw [List.foldl_cons, ih, stProj_placeBullet]
    simp

/-- After placing a non-empty run of lines the cursor is at or above
the limit. -/
theorem placeLines_y_ge (ls : List Str) (hne : ls ≠ []) :
    ∀ (st : SecState) (f : Bool), bottom_limit ≤ (placeLines st f ls).y := by
  induction ls with
  | nil => exact absurd rfl hne
  | cons l ls ih =>
    intro st f
    cases ls with
    | nil => exact placeLine_y_ge st f l
    | cons m ms =>
      rw [placeLines]
      exact ih (by simp) (placeLine st f l) false

/-- Cursor and trace bound preserved by the inner line loop: starting
at most one leading below the limit, every line is placed at most one
leading below the limit and the loop ends at most one leading below. -/
theorem placeLines_bound (ls : List Str) :
    ∀ (st : SecState) (f : Bool),
      bottom_limit - lineLeading ≤ st.y →
      (∀ l ∈ stFlat st, bottom_limit - lineLeading ≤ l.ypos) →
      bottom_limit - lineLeading ≤ (placeLines st f ls).y ∧
        ∀ l ∈ stFlat (placeLines st f ls), bottom_limit - lineLeading ≤ l.ypos := by
  induction ls with
  | nil => intro st f hy hl; exact ⟨hy, hl⟩
  | cons l ls ih =>
    intro st f hy hl
    rw [placeLines]
    refine ih (placeLine st f l) false ?_ ?_
    · have := placeLine_y_ge st f l
      have hBL : (0 : Int) ≤ lineLeading := by decide
      omega
    · intro x hx
      rw [stFlat_placeLine] at hx
      rcases List.mem_append.mp hx with h | h
      · exact hl x h
      · simp only [List.mem_singleton] at h
        subst h
        exact hy

/-- The bullet loop preserves the cursor and trace bound. -/
theorem placeBullet_bound (st : SecState) (b : Str)
    (hy : bottom_limit - lineLeading ≤ st.y)
    (hl : ∀ l ∈ stFlat st, bottom_limit - lineLeading ≤ l.ypos) :
    bottom_limit - lineLeading ≤ (placeBullet st b).y ∧
      ∀ l ∈ stFlat (placeBullet st b), bottom_limit - lineLeading ≤ l.ypos := by
  have h : placeBullet st b =
      { placeLines st true (_wrap_text b 60) with
        y := (placeLines st true (_wrap_text b 60)).y - lineLeading } := rfl
  have hafter := placeLines_y_ge (_wrap_text b 60) (wrap_ne_nil b 60) st true
  have hrest := placeLines_bound (_wrap_text b 60) st true hy hl
  rw [h]
  refine ⟨?_, ?_⟩
  · show bottom_limit - lineLeading ≤ (placeLines st true (_wrap_text b 60)).y - lineLeading
    omega
  · intro x hx
    exact hrest.2 x hx

/-- The whole fold preserves the cursor and trace bound. -/
theorem fold_bound (bs : List Str) :
    ∀ st : SecState,
      bottom_limit - lineLeading ≤ st.y →
      (∀ l ∈ stFlat st, bottom_limit - lineLeading ≤ l.ypos) →
      bottom_limit - lineLeading ≤ (bs.foldl placeBullet st).y ∧
        ∀ l ∈ stFlat (bs.foldl placeBullet st), bottom_limit - lineLeading ≤ l.ypos := by
  induction bs with
  | nil => intro st hy hl; exact ⟨hy, hl⟩
  | cons b bs ih =>
    intro st hy hl
    rw [List.foldl_cons]
    obtain ⟨hy2, hl2⟩ := placeBullet_bound st b hy hl
    exact ih (placeBullet st b) hy2 hl2

/-- Flushed pages are never empty and their last line was placed less
than one leading above the limit: placing one line preserves this. -/
theorem placeLine_pagesClosed (st : SecState) (f : Bool) (c : Str)
    (hp : ∀ pg ∈ st.pages, pg ≠ [] ∧
      ∀ l, pg.getLast? = some l → l.ypos < bottom_limit + lineLeading) :
    ∀ pg ∈ (placeLine st f c).pages, pg ≠ [] ∧
      ∀ l, pg.getLast? = some l → l.ypos < bottom_limit + lineLeading := by
  by_cases h : st.y - lineLeading < bottom_limit
  · rw [placeLine_flush st f c h]
    intro pg hpg
    simp only [List.mem_append, List.mem_singleton] at hpg
    rcases hpg with hpg | hpg
    · exact hp pg hpg
    · subst hpg
      refine ⟨by simp, ?_⟩
      intro l hl
      rw [List.getLast?_concat] at hl
      cases hl
      show st.y < bottom_limit + lineLeading
      omega
  · rw [placeLine_stay st f c h]
    exact hp

/-- The inner line loop preserves the flushed page invariant. -/
theorem placeLines_pagesClosed (ls : List Str) :
    ∀ (st : SecState) (f : Bool),
      (∀ pg ∈ st.pages, pg ≠ [] ∧
        ∀ l, pg.getLast? = some l → l.ypos < bottom_limit + lineLeading) →
      ∀ pg ∈ (placeLines st f ls).pages, pg ≠ [] ∧
        ∀ l, pg.getLast? = some l → l.ypos < bottom_limit + lineLeading := by
  induction ls with
  | nil => intro st f hp; exact hp
  | cons l ls ih =>
    intro st f hp
    rw [placeLines]
    exact ih (placeLine st f l) false (placeLine_pagesClosed st f l hp)

/-- The bullet fold preserves the flushed page invariant. -/
theorem fold_pagesClosed (bs : List Str) :
    ∀ st : SecState,
      (∀ pg ∈ st.pages, pg ≠ [] ∧
        ∀ l, pg.getLast? = some l → l.ypos < bottom_limit + lineLeading) →
      ∀ pg ∈ (bs.foldl placeBullet st).pages, pg ≠ [] ∧
        ∀ l, pg.getLast? = some l → l.ypos < bottom_limit + lineLeading := by
  induction bs with
  | nil => intro st hp; exact hp
  | cons b bs ih =>
    intro st hp
    rw [List.foldl_cons]
    refine ih (placeBullet st b) ?_
    have h : (placeBullet st b).pages = (placeLines st true (_wrap_text b 60)).pages := rfl
    rw [h]
    exact placeLines_pagesClosed (_wrap_text b 60) st true hp

/-- Unfolding equation of draw_section. -/
theorem draw_section_eq (heading : Str) (bullets : List Str) :
    draw_section heading bullets =
      if _normalize_bullets_list bullets = [] then []
      else
        ((((_normalize_bullets_list bullets).foldl placeBullet
            ⟨[], [], sectionTextTop⟩).pages ++
          [((_normalize_bullets_list bullets).foldl placeBullet
            ⟨[], [], sectionTextTop⟩).cur]).map fun ls => ⟨heading, ls⟩) := rfl

/-- C3 (amended): overflow handling of draw_section. Every page of a
section carries the very same heading, with no continuation suffix; the
marker flags and contents of the drawn lines, taken over all pages in
order, are exactly the tagged wrapped lines of the normalized bullets
in order, so a bullet whose lines straddle a flush continues on the
next page and nothing is lost; every line is placed at most one leading
below bottom_limit, because the overflow test runs after each drawn
line (not before), and the untested inter-bullet blank line can lower
the cursor by one further leading before the next line is drawn; and
every page except the last is flushed precisely because its final line
left the cursor below the limit, so that line sits within one leading
above the limit. -/
theorem draw_section_overflow (heading : Str) (bullets : List Str) :
    (∀ p ∈ draw_section heading bullets, p.heading = heading) ∧
    (((draw_section heading bullets).map fun p =>
        p.lines.map fun l => (l.isFirst, l.content)).flatten =
      ((_normalize_bullets_list bullets).map fun b =>
        tagWith true (_wrap_text b 60)).flatten) ∧
    (∀ p ∈ draw_section heading bullets, ∀ l ∈ p.lines,
      bottom_limit - lineLeading ≤ l.ypos) ∧
    (∀ p ∈ (draw_section heading bullets).dropLast,
      p.lines ≠ [] ∧ ∀ l, p.lines.getLast? = some l →
        l.ypos < bottom_limit + lineLeading) := by
  rw [draw_section_eq]
  by_cases hnb : _normalize_bullets_list bullets = []
  · rw [if_pos hnb, hnb]
    simp
  · rw [if_neg hnb]
    set st := (_normalize_bullets_list bullets).foldl placeBullet
      ⟨[], [], sectionTextTop⟩ with hst
    refine ⟨?_, ?_, ?_, ?_⟩
    · intro p hp
      rcases List.mem_map.mp hp with ⟨ls, _, rfl⟩
      rfl
    · rw [List.map_map]
      have hcomp : ((fun p : SecPage => p.lines.map fun l => (l.isFirst, l.content)) ∘
          fun ls => (⟨heading, ls⟩ : SecPage)) =
          fun ls : List DrawnLine => ls.map fun l => (l.isFirst, l.content) := rfl
      rw [hcomp, ← List.map_flatten]
      have hfl : (st.pages ++ [st.cur]).flatten = stFlat st := by
        rw [List.flatten_append]
        simp [stFlat]
      rw [hfl]
      have := stProj_fold (_normalize_bullets_list bullets) ⟨[], [], sectionTextTop⟩
      rw [← hst] at this
      rw [show (stFlat st).map (fun l => (l.isFirst, l.content)) = stProj st from rfl]
      rw [this]
      simp [stProj, stFlat]
    · intro p hp l hl
      rcases List.mem_map.mp hp with ⟨ls, hls, rfl⟩
      have hbound := fold_bound (_normalize_bullets_list bullets)
        ⟨[], [], sectionTextTop⟩ (by show _ ≤ sectionTextTop; decide)
        (by intro x hx; simp [stFlat] at hx)
      rw [← hst] at hbound
      refine hbound.2 l ?_
      rw [stFlat]
      rcases List.mem_append.mp hls with h | h
      · exact List.mem_append.mpr (Or.inl (List.mem_flatten.mpr ⟨ls, h, hl⟩))
      · simp only [List.mem_singleton] at h
        subst h
        exact List.mem_append.mpr (Or.inr hl)
    · intro p hp
      rw [List.map_append, List.map_cons, List.map_nil, List.dropLast_concat] at hp
      rcases List.mem_map.mp hp with ⟨ls, hls, rfl⟩
      have hclosed := fold_pagesClosed (_normalize_bullets_list bullets)
        ⟨[], [], sectionTextTop⟩ (by intro pg hpg; simp at hpg)
      rw [← hst] at hclosed
      exact hclosed ls hls

set_option maxRecDepth 100000 in
/-- C3 (counterexample to the claim as stated): the claim has the
overflow test run before each line is drawn, which would keep every
drawn line at or above bottom_limit. On cexBullets a bullet line is
drawn below bottom_limit: after the twenty-seventh line the test
passes, the untested blank spacing line drops the cursor below the
limit, and the next bullet is drawn there before the page flush. -/
theorem draw_section_check_before_cex :
    hasLineBelowLimit (draw_section (strL "S") cexBullets) = true := by decide

set_option maxRecDepth 100000 in
/-- Witness for C3 at concrete inputs: the first page of the overflow
example keeps the plain heading, and its last line, after which the
page was flushed, was drawn below the limit but within one leading
above it. -/
theorem draw_section_overflow_witness :
    cexFirstPage.heading = strL "S" ∧
    ((42348 : Int) < bottom_limit + lineLeading ∧
      bottom_limit - lineLeading ≤ (42348 : Int)) :=
  ⟨(draw_section_overflow (strL "S") cexBullets).1 cexFirstPage (by decide),
   ((draw_section_overflow (strL "S") cexBullets).2.2.2 cexFirstPage (by decide)).2
      ⟨true, strL "a", 42348⟩ (by decide),
   (draw_section_overflow (strL "S") cexBullets).2.2.1 cexFirstPage (by decide)
      ⟨true, strL "a", 42348⟩ (by decide)⟩

/-- Marker count over pages equals the marker count of the flattened
trace. -/
theorem sum_secPageCount (l : List (List DrawnLine)) :
    (l.map secPageCount).sum = (l.flatten.filter fun x => x.isFirst).length := by
  induction l with
  | nil => simp
  | cons pg l ih =>
    simp [secPageCount, List.filter_append, ih]

/-- One bullet contributes exactly one marker line, whatever its
wrapped length. -/
theorem tagWith_true_count (ls : List Str) (hne : ls ≠ []) :
    ((tagWith true ls).filter fun p => p.1).length = 1 := by
  cases ls with
  | nil => exact absurd rfl hne
  | cons l ls =>
    have h : (ls.map fun x => ((false, x) : Bool × Str)).filter (fun p => p.1) = [] := by
      induction ls with
      | nil => rfl
      | cons m ms _ => simp
    simp [tagWith, List.filter_cons, h]

/-- Marker count of the flattened tags of a bullet list. -/
theorem tags_count (bs : List Str) :
    ((bs.map fun b => tagWith true (_wrap_text b 60)).flatten.filter
      fun p => p.1).length = bs.length := by
  induction bs with
  | nil => rfl
  | cons b bs ih =>
    simp only [List.map_cons, List.flatten_cons, List.filter_append,
      List.length_append, ih, tagWith_true_count (_wrap_text b 60) (wrap_ne_nil b 60),
      List.length_cons]
    omega

/-- The pages of one section carry exactly one marker line per
normalized bullet. -/
theorem draw_section_count (heading : Str) (bullets : List Str) :
    ((draw_section heading bullets).map fun p => secPageCount p.lines).sum =
      (_normalize_bullets_list bullets).length := by
  rw [draw_section_eq]
  by_cases hnb : _normalize_bullets_list bullets = []
  · rw [if_pos hnb, hnb]
    simp
  · rw [if_neg hnb]
    set st := (_normalize_bullets_list bullets).foldl placeBullet
      ⟨[], [], sectionTextTop⟩ with hst
    rw [List.map_map]
    have hcomp : ((fun p : SecPage => secPageCount p.lines) ∘
        fun ls => (⟨heading, ls⟩ : SecPage)) = secPageCount := rfl
    rw [hcomp, sum_secPageCount]
    have hfl : (st.pages ++ [st.cur]).flatten = stFlat st := by
      rw [List.flatten_append]
      simp [stFlat]
    rw [hfl]
    have hlen : ((stProj st).filter fun p => p.1).length =
        ((stFlat st).filter fun l => l.isFirst).length := by
      rw [stProj, List.filter_map, List.length_map]
      rfl
    rw [← hlen]
    have hproj := stProj_fold (_normalize_bullets_list bullets)
      ⟨[], [], sectionTextTop⟩
    rw [← hst] at hproj
    rw [hproj]
    have hinit : stProj ⟨[], [], sectionTextTop⟩ = [] := rfl
    rw [hinit, List.nil_append]
    exact tags_count (_normalize_bullets_list bullets)

/-- C4. For a structured document, one whose bullet lists are fixed
points of the bullet cleanup as the normalizer guarantees, the number
of bullet-marker lines drawn over all pages produced by build_pdf
equals the total bullet count of the document: pagination never drops
or duplicates a bullet. -/
theorem build_pdf_bullet_count (lang : Str) (d : SummaryData)
    (h1 : _normalize_bullets_list d.summary = d.summary)
    (h2 : _normalize_bullets_list d.key_tasks = d.key_tasks)
    (h3 : _normalize_bullets_list d.action_plan = d.action_plan)
    (h4 : _normalize_bullets_list d.conclusion = d.conclusion) :
    countBullets (build_pdf lang d) =
      d.summary.length + d.key_tasks.length +
        d.action_plan.length + d.conclusion.length := by
  have hsec : ∀ (hd : Str) (bs : List Str),
      (((draw_section hd bs).map Page.sectionPage).map countBulletsPage).sum =
        (_normalize_bullets_list bs).length := by
    intro hd bs
    rw [List.map_map]
    have hcomp : (countBulletsPage ∘ Page.sectionPage) =
        fun p : SecPage => secPageCount p.lines := rfl
    rw [hcomp, draw_section_count]
  rw [build_pdf, countBullets]
  simp only [List.map_cons, List.sum_cons, List.map_append, List.sum_append]
  rw [hsec, hsec, hsec, hsec, h1, h2, h3, h4]
  simp [countBulletsPage]

/-- Witness for C4 at a concrete document with three bullets. -/
theorem build_pdf_bullet_count_witness :
    _normalize_bullets_list [strL "a", strL "b"] = [strL "a", strL "b"] ∧
    countBullets (build_pdf (strL "en")
      ⟨strL "T", [], [strL "a", strL "b"], [strL "c"], [], []⟩) = 3 := by
  refine ⟨by decide, ?_⟩
  have := build_pdf_bullet_count (strL "en")
    ⟨strL "T", [], [strL "a", strL "b"], [strL "c"], [], []⟩
    (by decide) (by decide) (by decide) (by decide)
  simp at this
  exact this

/-! Lemmas about the slide chunker. -/

/-- The chunks of the range loop concatenate back to the chunked list. -/
theorem chunks_flatten :
    ∀ (m : Nat) (l : List Str), l.length ≤ 7 * m →
      ((List.range m).map fun k => (l.drop (7 * k)).take 7).flatten = l := by
  intro m
  induction m with
  | zero =>
    intro l hl
    have hnil : l = [] := List.length_eq_zero.mp (by omega)
    subst hnil; rfl
  | succ m ih =>
    intro l hl
    rw [List.range_succ_eq_map, List.map_cons, List.map_map, List.flatten_cons]
    have hmap : ((List.range m).map ((fun k => (l.drop (7 * k)).take 7) ∘ Nat.succ)) =
        (List.range m).map fun k => ((l.drop 7).drop (7 * k)).take 7 := by
      refine List.map_congr_left ?_
      intro k _
      show (l.drop (7 * (k + 1))).take 7 = ((l.drop 7).drop (7 * k)).take 7
      rw [List.drop_drop]
      congr 2
      omega
    rw [hmap, ih (l.drop 7) (by rw [List.length_drop]; omega)]
    simp

/-- C5. For a section with a non-empty bullet list, the slide chunker
produces ceil(n / 7) slides, written (n + 6) / 7 in natural division,
partitioning the bullets into consecutive order-preserving non-empty
chunks of at most 7; the slide of chunk 0 carries the heading verbatim
and the slide of chunk k for positive k carries the heading suffixed
with the 1-based index k + 1 in parentheses, so the second chunk reads
(2). -/
theorem slides_per_section (title_text : Str) (bullets : List Str)
    (hne : bullets ≠ []) :
    (bullets_slides_for_section title_text bullets).length =
      (bullets.length + 6) / 7 ∧
    ((bullets_slides_for_section title_text bullets).map Slide.bullets).flatten =
      bullets ∧
    (∀ s ∈ bullets_slides_for_section title_text bullets,
      s.bullets.length ≤ 7 ∧ s.bullets ≠ []) ∧
    (bullets_slides_for_section title_text bullets).map Slide.heading =
      (List.range ((bullets.length + 6) / 7)).map fun k =>
        if k = 0 then title_text
        else title_text ++ strL " (" ++ natStr (k + 1) ++ strL ")" := by
  refine ⟨?_, ?_, ?_, ?_⟩
  · simp [bullets_slides_for_section]
  · rw [bullets_slides_for_section, List.map_map]
    exact chunks_flatten ((bullets.length + 6) / 7) bullets (by omega)
  · intro s hs
    rw [bullets_slides_for_section] at hs
    rcases List.mem_map.mp hs with ⟨k, hk, rfl⟩
    have hk2 : k < (bullets.length + 6) / 7 := List.mem_range.mp hk
    have hn : 0 < bullets.length := List.length_pos.mpr hne
    constructor
    · show ((bullets.drop (7 * k)).take 7).length ≤ 7
      rw [List.length_take]
      omega
    · show (bullets.drop (7 * k)).take 7 ≠ []
      intro hcon
      have hlen := List.length_eq_zero.mpr hcon
      rw [List.length_take, List.length_drop] at hlen
      omega
  · rw [bullets_slides_for_section, List.map_map]
    rfl

/-- Witness for C5 at the concrete spec example: ten bullets with chunk
capacity seven yield two slides, headed Summary and Summary (2). -/
theorem slides_per_section_witness :
    (bullets_slides_for_section (strL "Summary")
      (List.replicate 10 (strL "b"))).length = 2 ∧
    (bullets_slides_for_section (strL "Summary")
      (List.replicate 10 (strL "b"))).map Slide.heading =
      [strL "Summary", strL "Summary (2)"] := by
  have h := slides_per_section (strL "Summary") (List.replicate 10 (strL "b"))
    (by decide)
  refine ⟨?_, ?_⟩
  · rw [h.1]; decide
  · rw [h.2.2.2]; decide

/-- C6 (counterexample to the claim as stated): a section whose bullet
list normalizes to zero bullets can still produce a slide, because the
slides path never applies the bullet cleanup: the single bullet holding
one space normalizes away, yet the deck built for it holds one summary
slide. -/
theorem slides_empty_after_norm_cex :
    _normalize_bullets_list [strL " "] = [] ∧
    (_slides_title_and_bullets_requests (strL "T") [] (strL "en")
      [strL " "] [] [] []).slides.length = 1 := by decide

/-- C6 (amended): a section with zero bullets after normalization
contributes no page and no heading to the PDF renderer; the slides
renderer skips a section only when its raw bullet list is itself empty,
so a non-empty list of whitespace-only bullets still yields slides. -/
theorem empty_sections_skipped (heading title_text : Str) (bs : List Str) :
    (_normalize_bullets_list bs = [] → draw_section heading bs = []) ∧
    (bs = [] → bullets_slides_for_section title_text bs = []) := by
  constructor
  · intro h
    rw [draw_section_eq, if_pos h]
  · intro h
    subst h
    rfl

/-- Witness for C6 at concrete inputs: a whitespace-only bullet list
yields no PDF pages, and an empty list yields no slides. -/
theorem empty_sections_skipped_witness :
    draw_section (strL "S") [strL " "] = [] ∧
    bullets_slides_for_section (strL "S") [] = [] :=
  ⟨(empty_sections_skipped (strL "S") (strL "S") [strL " "]).1 (by decide),
   (empty_sections_skipped (strL "S") (strL "S") []).2 rfl⟩

/-- C7 (counterexample to the claim as stated): a whitespace-only
bullet reaches the slides output, because the slides path applies no
bullet cleanup: the bullet holding one space, non-empty but with an
empty whitespace split, appears verbatim in the emitted slide body. -/
theorem slides_whitespace_bullet_cex :
    (_slides_title_and_bullets_requests (strL "T") [] (strL "en")
      [strL " "] [] [] []).slides.map Slide.bullets = [[strL " "]] ∧
    strL " " ≠ [] ∧ pySplit (strL " ") = [] := by decide

/-- C7 (amended): every bullet retained by the bullet cleanup is
non-empty, contains a non-whitespace character (its split is
non-empty), and is exactly whitespace-collapsed, so no bullet drawn by
the PDF renderer, which draws exactly the cleaned bullets, is empty or
whitespace-only; the slides renderer receives the bullets without this
cleanup. -/
theorem normalized_bullets_clean (raw : List Str) :
    ∀ b ∈ _normalize_bullets_list raw,
      b ≠ [] ∧ pySplit b ≠ [] ∧ collapseWS b = b := by
  intro b hb
  rcases List.mem_filterMap.mp hb with ⟨item, _, hitem⟩
  by_cases h1 : item = []
  · simp [h1] at hitem
  · by_cases h2 : collapseWS item = []
    · simp [h1, h2] at hitem
    · simp [h1, h2] at hitem
      subst hitem
      refine ⟨h2, ?_, collapseWS_collapseWS item⟩
      intro hsp
      have h3 := collapseWS_collapseWS item
      rw [collapseWS, hsp] at h3
      rw [show joinSp ([] : List Str) = [] from rfl] at h3
      exact h2 h3.symm

/-- Witness for C7 at a concrete input: the cleaned form of a padded
two-word bullet is retained, non-empty, non-whitespace and collapsed. -/
theorem normalized_bullets_clean_witness :
    strL "a b" ∈ _normalize_bullets_list [strL "  a  b "] ∧
    (strL "a b" ≠ [] ∧ pySplit (strL "a b") ≠ [] ∧
      collapseWS (strL "a b") = strL "a b") :=
  ⟨by decide, normalized_bullets_clean [strL "  a  b "] (strL "a b") (by decide)⟩

/-! Lemmas about record normalization. -/

/-- The title coercion always yields a string, so re-applying it
changes nothing. -/
theorem coerceTitle_idem (v : Option PyVal) :
    coerceTitle (some (coerceTitle v)) = coerceTitle v := by
  match v with
  | none => rfl
  | some (PyVal.vStr s) => rfl
  | some (PyVal.vInt n) => rfl
  | some (PyVal.vBool b) => rfl
  | some PyVal.vNone => rfl
  | some (PyVal.vList xs) => rfl

/-- The short description coercion always yields a string, so
re-applying it changes nothing. -/
theorem coerceShort_idem (v : Option PyVal) :
    coerceShort (some (coerceShort v)) = coerceShort v := by
  match v with
  | none => rfl
  | some (PyVal.vStr s) => rfl
  | some (PyVal.vInt n) => rfl
  | some (PyVal.vBool b) => rfl
  | some PyVal.vNone => rfl
  | some (PyVal.vList xs) => rfl

/-- Every bullet retained by the value-level cleanup is non-empty and
whitespace-collapsed. -/
theorem normalize_v_clean (xs : List PyVal) :
    ∀ b ∈ _normalize_bullets_list_v xs, b ≠ [] ∧ collapseWS b = b := by
  intro b hb
  rcases List.mem_filterMap.mp hb with ⟨item, _, hitem⟩
  by_cases h1 : truthy item = false
  · simp [h1] at hitem
  · by_cases h2 : collapseWS (pyStr item) = []
    · simp [h1, h2] at hitem
    · simp [h1, h2] at hitem
      subst hitem
      exact ⟨h2, collapseWS_collapseWS (pyStr item)⟩

/-- The value-level cleanup is the identity on lists of clean string
values. -/
theorem normalize_v_fixed :
    ∀ (l : List Str), (∀ b ∈ l, b ≠ [] ∧ collapseWS b = b) →
      _normalize_bullets_list_v (l.map PyVal.vStr) = l := by
  intro l
  induction l with
  | nil => intro _; rfl
  | cons b bs ih =>
    intro h
    obtain ⟨hb1, hb2⟩ := h b (by simp)
    rw [List.map_cons, _normalize_bullets_list_v, List.filterMap_cons]
    have hfb : (if truthy (PyVal.vStr b) = false then none
        else
          let text := collapseWS (pyStr (PyVal.vStr b))
          if text = [] then none else some text) = some b := by
      rw [if_neg (by simp [truthy, List.isEmpty_iff]; exact hb1)]
      show (if collapseWS (pyStr (PyVal.vStr b)) = [] then none
        else some (collapseWS (pyStr (PyVal.vStr b)))) = some b
      rw [show pyStr (PyVal.vStr b) = b from rfl, hb2, if_neg hb1]
    rw [hfb]
    show b :: _normalize_bullets_list_v (bs.map PyVal.vStr) = b :: bs
    rw [ih (fun x hx => h x (by simp [hx]))]

/-- The list coercion always yields a list value. -/
theorem coerceListField_isList (v : Option PyVal) :
    ∃ xs, coerceListField v = PyVal.vList xs := by
  match v with
  | none => exact ⟨[], rfl⟩
  | some (PyVal.vStr s) => exact ⟨[PyVal.vStr s], rfl⟩
  | some (PyVal.vList l) => exact ⟨(l.filter truthy).map fun x => PyVal.vStr (pyStr x), rfl⟩
  | some (PyVal.vInt n) => exact ⟨[], rfl⟩
  | some (PyVal.vBool b) => exact ⟨[], rfl⟩
  | some PyVal.vNone => exact ⟨[], rfl⟩

/-- Re-coercing and re-cleaning an already cleaned list field changes
nothing. -/
theorem cleanup_list_idem (xs : List PyVal) :
    cleanupField (coerceListField (some (cleanupField (PyVal.vList xs)))) =
      cleanupField (PyVal.vList xs) := by
  have hclean := normalize_v_clean xs
  show cleanupField (coerceListField (some (PyVal.vList
      ((_normalize_bullets_list_v xs).map PyVal.vStr)))) =
    PyVal.vList ((_normalize_bullets_list_v xs).map PyVal.vStr)
  set l := _normalize_bullets_list_v xs with hl
  have hfilter : (l.map PyVal.vStr).filter truthy = l.map PyVal.vStr := by
    rw [List.filter_eq_self]
    intro a ha
    rcases List.mem_map.mp ha with ⟨b, hb, rfl⟩
    simp [truthy, List.isEmpty_iff]
    exact (hclean b hb).1
  have hco : coerceListField (some (PyVal.vList (l.map PyVal.vStr))) =
      PyVal.vList (l.map PyVal.vStr) := by
    show PyVal.vList (((l.map PyVal.vStr).filter truthy).map
      fun x => PyVal.vStr (pyStr x)) = PyVal.vList (l.map PyVal.vStr)
    rw [hfilter, List.map_map]
    rfl
  rw [hco]
  show PyVal.vList ((_normalize_bullets_list_v (l.map PyVal.vStr)).map PyVal.vStr) =
    PyVal.vList (l.map PyVal.vStr)
  rw [normalize_v_fixed l hclean]

/-- Re-processing a fully processed list field is the identity. -/
theorem cleanup_coerce_idem (v : Option PyVal) :
    cleanupField (coerceListField (some (cleanupField (coerceListField v)))) =
      cleanupField (coerceListField v) := by
  obtain ⟨xs, hxs⟩ := coerceListField_isList v
  rw [hxs]
  exact cleanup_list_idem xs

/-- C9. The full normalizer, the coercion rules of structure_text
followed by the bullet cleanup of every list field, is idempotent: a
record that is already a fully normalized structured document, that is,
any output of the normalizer, normalizes to an identical result. -/
theorem normalizeDoc_idem (r : RawRecord) :
    normalizeDoc (normalizeDoc r) = normalizeDoc r := by
  show RawRecord.mk _ _ _ _ _ _ = RawRecord.mk _ _ _ _ _ _
  rw [RawRecord.mk.injEq]
  refine ⟨?_, ?_, ?_, ?_, ?_, ?_⟩
  · show some (coerceTitle (some (coerceTitle r.title))) = some (coerceTitle r.title)
    rw [coerceTitle_idem]
  · show some (coerceShort (some (coerceShort r.short_description))) =
      some (coerceShort r.short_description)
    rw [coerceShort_idem]
  · show some (cleanupField (coerceListField (some (cleanupField
        (coerceListField r.summary))))) =
      some (cleanupField (coerceListField r.summary))
    rw [cleanup_coerce_idem]
  · show some (cleanupField (coerceListField (some (cleanupField
        (coerceListField r.key_tasks))))) =
      some (cleanupField (coerceListField r.key_tasks))
    rw [cleanup_coerce_idem]
  · show some (cleanupField (coerceListField (some (cleanupField
        (coerceListField r.action_plan))))) =
      some (cleanupField (coerceListField r.action_plan))
    rw [cleanup_coerce_idem]
  · show some (cleanupField (coerceListField (some (cleanupField
        (coerceListField r.conclusion))))) =
      some (cleanupField (coerceListField r.conclusion))
    rw [cleanup_coerce_idem]

/-- C8. For a record whose title is absent or not a string, the
normalized title is the Python string representation of the present
value, or of the empty-string default when absent, truncated to 120
code points; the truncation really bounds the length by 120; and when
the truncated title is empty, the rendered document substitutes the
localized default title. -/
theorem title_normalization (r : RawRecord) (lang : Str)
    (hns : ∀ s, r.title ≠ some (PyVal.vStr s)) :
    coerceTitle r.title =
      PyVal.vStr ((pyStr (r.title.getD (PyVal.vStr []))).take 120) ∧
    ((pyStr (r.title.getD (PyVal.vStr []))).take 120).length ≤ 120 ∧
    ((pyStr (r.title.getD (PyVal.vStr []))).take 120 = [] →
      firstPageTitle (build_pdf lang (toSummaryData (structure_text_normalize r))) =
        t lang (strL "Конспект") (strL "Summary")) := by
  have hco : coerceTitle r.title =
      PyVal.vStr ((pyStr (r.title.getD (PyVal.vStr []))).take 120) := by
    match hv : r.title with
    | none => rfl
    | some (PyVal.vStr s) => exact absurd hv (hns s)
    | some (PyVal.vInt n) => rfl
    | some (PyVal.vBool b) => rfl
    | some PyVal.vNone => rfl
    | some (PyVal.vList xs) => rfl
  refine ⟨hco, by rw [List.length_take]; omega, ?_⟩
  intro hempty
  have htitle : (toSummaryData (structure_text_normalize r)).title = [] := by
    show strOfField (some (coerceTitle r.title)) = []
    rw [hco]
    exact hempty
  show (if (toSummaryData (structure_text_normalize r)).title = []
      then t lang (strL "Конспект") (strL "Summary")
      else (toSummaryData (structure_text_normalize r)).title) =
    t lang (strL "Конспект") (strL "Summary")
  rw [htitle, if_pos rfl]

/-- Witness for C8 at a concrete record with the title absent: the
normalized title is the empty string and the rendered first page falls
back to the localized default. -/
theorem title_normalization_witness :
    coerceTitle (none : Option PyVal) = PyVal.vStr [] ∧
    firstPageTitle (build_pdf (strL "en")
      (toSummaryData (structure_text_normalize
        ⟨none, none, none, none, none, none⟩))) = strL "Summary" := by
  have h := title_normalization ⟨none, none, none, none, none, none⟩ (strL "en")
    (fun s hcon => Option.noConfusion hcon)
  refine ⟨h.1, ?_⟩
  rw [h.2.2 rfl]
  decide
